import Mathlib

/-!
Verification of the Chargers news bot pipeline (bot.py) against its
specification.  The embedding is shallow: Python strings are lists of
characters, wall-clock instants are integer epoch seconds, the Twitter
client and the ledger file are explicit parameters and state.  Each
component of the pipeline (tweet formatting, relevance and recency
filters, thread cleaning, thread posting, the dedup ledger, the
orchestrator runs) is translated from the source as directly as Lean
allows.
-/

set_option maxRecDepth 100000

namespace ChargersBot

/-- ASCII lower-casing of one character, the action of Python str.lower
on the ASCII range (feed titles and keywords in this bot are ASCII). -/
def lowerChar (c : Char) : Char :=
  if 'A' ≤ c ∧ c ≤ 'Z' then Char.ofNat (c.toNat + 32) else c

/-- Lower-casing of a whole string. -/
def lowerStr (l : List Char) : List Char :=
  l.map lowerChar

/-- Python whitespace characters recognised by str.strip and the regex
class backslash-s, restricted to ASCII. -/
def isSpaceB (c : Char) : Bool :=
  c = ' ' || c = '\t' || c = '\n' || c = '\r' || c = Char.ofNat 11 || c = Char.ofNat 12

/-- Python str.strip with no argument: drop whitespace from both ends. -/
def stripWs (l : List Char) : List Char :=
  ((l.dropWhile isSpaceB).reverse.dropWhile isSpaceB).reverse

/-- Python str.split on a single newline separator; an empty input
yields one empty field, exactly as in Python. -/
def splitOnNl : List Char → List (List Char)
  | [] => [[]]
  | c :: rest =>
    if c = '\n' then [] :: splitOnNl rest
    else
      match splitOnNl rest with
      | [] => [[c]]
      | h :: t => (c :: h) :: t

/-- Boolean test that the first list is an initial segment of the second. -/
def startsWithB : List Char → List Char → Bool
  | [], _ => true
  | _ :: _, [] => false
  | a :: as, b :: bs => a == b && startsWithB as bs

/-- Python substring membership test (the in operator on str). -/
def isSubstr (n : List Char) : List Char → Bool
  | [] => n.isEmpty
  | c :: t => startsWithB n (c :: t) || isSubstr n t

/-- Python slice s[:n] for a possibly negative bound n: a negative bound
counts from the end of the string and clips at zero. -/
def pyTake (s : List Char) (n : Int) : List Char :=
  s.take (if 0 ≤ n then n.toNat else ((s.length : Int) + n).toNat)

/-- Scanner for the closing bracket of an HTML-like tag: the characters
after the opening angle bracket and after at least one non-closing
character have been consumed; returns the remainder after the closing
angle bracket when one exists. -/
def tagCloseGo : List Char → Option (List Char)
  | [] => none
  | c :: rest => if c = '>' then some rest else tagCloseGo rest

/-- Attempt to read the body of an HTML-like tag directly after the
opening angle bracket: at least one non-closing character followed by a
closing angle bracket, mirroring the regex <[^>]+> used by the bot. -/
def tagClose (l : List Char) : Option (List Char) :=
  match l with
  | [] => none
  | c :: rest => if c = '>' then none else tagCloseGo rest

/-- Fuelled worker for tag stripping; the fuel is an upper bound on the
number of characters still to be consumed, so it never runs out when
called with the length of the input. -/
def stripTagsAux : Nat → List Char → List Char
  | 0, _ => []
  | _ + 1, [] => []
  | fuel + 1, c :: rest =>
    if c = '<' then
      match tagClose rest with
      | some rest2 => stripTagsAux fuel rest2
      | none => c :: stripTagsAux fuel rest
    else c :: stripTagsAux fuel rest

/-- Removal of HTML-like tags from a title: re.sub of the pattern <[^>]+>
by the empty string, scanning left to right. -/
def stripTags (l : List Char) : List Char :=
  stripTagsAux l.length l

/-- Title truncation of format_tweet: with the budget
280 - len(link) - 10, a title longer than the budget is cut to three
characters less than the budget (a Python slice, so a negative bound
counts from the end) and an ellipsis of three dots is appended. -/
def truncTitle (t link : List Char) : List Char :=
  if (280 - (link.length : Int) - 10) < (t.length : Int) then
    pyTake t (280 - (link.length : Int) - 10 - 3) ++ [ '.', '.', '.' ]
  else t

/-- ChargersNewsBot.format_tweet: strip tags from the title, truncate it
against the link budget, and join title and link with two newlines. -/
def formatTweet (title link : List Char) : List Char :=
  truncTitle (stripTags title) link ++ [ '\n', '\n' ] ++ link

theorem pyTake_length_le (s : List Char) (n : Int) (hn : 0 ≤ n) :
    (pyTake s n).length ≤ n.toNat := by
  unfold pyTake
  rw [if_pos hn, List.length_take]
  exact Nat.min_le_left _ _

/-- C1 (amended): every formatted tweet ends with the literal link; when
the link holds at most 267 characters the whole tweet fits in 280
characters; and when the tag-stripped title together with the link fits
the code's truncation budget of 270 characters, the title appears
unmodified, with no truncation and no appended ellipsis. -/
theorem c1_format_tweet_bounds (title link : List Char) :
    (∃ pre, formatTweet title link = pre ++ link) ∧
    (link.length ≤ 267 → (formatTweet title link).length ≤ 280) ∧
    ((stripTags title).length + link.length ≤ 270 →
      formatTweet title link = stripTags title ++ [ '\n', '\n' ] ++ link) := by
  refine ⟨⟨truncTitle (stripTags title) link ++ [ '\n', '\n' ], by
    simp [formatTweet, List.append_assoc]⟩, ?_, ?_⟩
  · intro hlink
    unfold formatTweet truncTitle
    by_cases h : (280 - (link.length : Int) - 10) < ((stripTags title).length : Int)
    · rw [if_pos h]
      have h0 : (0 : Int) ≤ 280 - (link.length : Int) - 10 - 3 := by omega
      have h1 := pyTake_length_le (stripTags title) (280 - (link.length : Int) - 10 - 3) h0
      simp only [List.length_append, List.length_cons, List.length_nil]
      omega
    · rw [if_neg h]
      simp only [List.length_append, List.length_cons, List.length_nil]
      omega
  · intro hfit
    unfold formatTweet truncTitle
    rw [if_neg (by omega)]

/-- Witness for C1 at a concrete title and link. -/
theorem c1_format_tweet_bounds_witness :
    (∃ pre, formatTweet ( "Herbert throws 3 TDs".data) ( "http://x/1".data) =
      pre ++ "http://x/1".data) ∧
    (formatTweet ( "Herbert throws 3 TDs".data) ( "http://x/1".data)).length ≤ 280 ∧
    formatTweet ( "Herbert throws 3 TDs".data) ( "http://x/1".data) =
      stripTags ( "Herbert throws 3 TDs".data) ++ [ '\n', '\n' ] ++ "http://x/1".data :=
  ⟨(c1_format_tweet_bounds _ _).1,
   (c1_format_tweet_bounds _ _).2.1 (by decide),
   (c1_format_tweet_bounds _ _).2.2 (by decide)⟩

/-- Counterexample to C1 as stated: with a 280-character link the output
has 285 characters, and a 265-character title with a 10-character link
satisfies title plus separator plus link at most 280 yet is truncated
with an appended ellipsis. -/
theorem c1_counterexample :
    280 < (formatTweet ( "Hello".data) (List.replicate 280 'a')).length ∧
    ((stripTags (List.replicate 265 'a')).length + 2 + ( "http://x/1".data).length ≤ 280 ∧
      formatTweet (List.replicate 265 'a') ( "http://x/1".data) ≠
        stripTags (List.replicate 265 'a') ++ [ '\n', '\n' ] ++ "http://x/1".data) := by
  refine ⟨by decide, by decide, by decide⟩

theorem startsWithB_iff (n : List Char) :
    ∀ h : List Char, startsWithB n h = true ↔ ∃ rest, h = n ++ rest := by
  induction n with
  | nil =>
    intro h
    simp [startsWithB]
  | cons a as ih =>
    intro h
    cases h with
    | nil =>
      simp [startsWithB]
    | cons b bs =>
      simp only [startsWithB, Bool.and_eq_true, beq_iff_eq, ih, List.cons_append]
      constructor
      · rintro ⟨rfl, rest, rfl⟩
        exact ⟨rest, rfl⟩
      · rintro ⟨rest, he⟩
        injection he with h1 h2
        exact ⟨h1.symm, rest, h2⟩

theorem isSubstr_iff (n : List Char) :
    ∀ h : List Char, isSubstr n h = true ↔ ∃ pre post, h = pre ++ n ++ post := by
  intro h
  induction h with
  | nil =>
    simp only [isSubstr, List.isEmpty_iff]
    constructor
    · rintro rfl
      exact ⟨[], [], rfl⟩
    · rintro ⟨pre, post, he⟩
      rcases List.append_eq_nil.mp he.symm with ⟨h1, h2⟩
      exact (List.append_eq_nil.mp h1).2
  | cons c t ih =>
    simp only [isSubstr, Bool.or_eq_true, startsWithB_iff, ih]
    constructor
    · rintro (⟨rest, he⟩ | ⟨pre, post, he⟩)
      · exact ⟨[], rest, by simp [he]⟩
      · exact ⟨c :: pre, post, by simp [he]⟩
    · rintro ⟨pre, post, he⟩
      cases pre with
      | nil =>
        left
        exact ⟨post, by simpa using he⟩
      | cons p ps =>
        right
        injection he with h1 h2
        exact ⟨ps, post, h2⟩

/-- Relevance check of fetch_news: the title and summary are
lower-cased, joined by a single space as by the f-string
building text_content, and an entry is accepted when some keyword,
lower-cased, occurs in that text as a substring. -/
def relevanceCheck (title summary : List Char) (keywords : List (List Char)) : Bool :=
  keywords.any fun k => isSubstr (lowerStr k) (lowerStr title ++ [ ' ' ] ++ lowerStr summary)

/-- C2 (amended): the relevance check accepts exactly when some keyword,
lower-cased, is a substring of the lower-cased title, a single space,
and the lower-cased summary joined in that order; with an empty keyword
list no entry is ever accepted. -/
theorem c2_relevance_iff (title summary : List Char) (keywords : List (List Char)) :
    (relevanceCheck title summary keywords = true ↔
      ∃ k ∈ keywords, ∃ pre post,
        lowerStr title ++ [ ' ' ] ++ lowerStr summary = pre ++ lowerStr k ++ post) ∧
    relevanceCheck title summary [] = false := by
  constructor
  · simp [relevanceCheck, List.any_eq_true, isSubstr_iff]
  · rfl

/-- Counterexample to C2 as stated: with title her, summary bert and the
single keyword herbert, the keyword is a substring of the plain
concatenation of title and summary, yet the code rejects the entry
because it inserts a space between the two fields. -/
theorem c2_counterexample :
    relevanceCheck ( "her".data) ( "bert".data) [ "herbert".data ] = false ∧
    ∃ pre post, lowerStr ( "her".data ++ "bert".data) =
      pre ++ lowerStr ( "herbert".data) ++ post :=
  ⟨by decide, [], [], by decide⟩

/-- ChargersNewsBot.is_recent_article: a missing or unparseable publish
time (the two fail-open branches of the code, collapsed into the absent
value) passes; otherwise the elapsed seconds between now and the publish
time, divided by 3600, must be at most the threshold.  Instants are
epoch seconds; the float arithmetic of the code is modelled exactly over
the rationals. -/
def isRecentArticle (now : Int) (publishedParsed : Option Int) (hoursThreshold : Int) : Bool :=
  match publishedParsed with
  | none => true
  | some p => decide ((((now - p : Int) : Rat) / 3600) ≤ (hoursThreshold : Rat))

theorem isRecentArticle_some_iff (now p h : Int) :
    isRecentArticle now (some p) h = true ↔ now - p ≤ h * 3600 := by
  simp only [isRecentArticle, decide_eq_true_eq]
  rw [div_le_iff₀ (by norm_num : (0 : Rat) < 3600)]
  constructor
  · intro hq
    exact_mod_cast hq
  · intro hi
    exact_mod_cast hi

/-- C3: an article with no parsed publish time passes the recency filter
at every threshold, and an article with parsed publish time p passes at
threshold h exactly when the elapsed time now - p is at most h hours,
that is at most h * 3600 seconds. -/
theorem c3_recency (now h : Int) :
    (∀ hoursThreshold : Int, isRecentArticle now none hoursThreshold = true) ∧
    (∀ p : Int, isRecentArticle now (some p) h = true ↔ now - p ≤ h * 3600) :=
  ⟨fun _ => rfl, fun p => isRecentArticle_some_iff now p h⟩

/-- Strip a leading numbering of the form digits slash digits, then
optional whitespace, one optional dash or colon, and optional
whitespace: re.sub of the anchored pattern used on generated thread
lines.  When the pattern does not match, the line is unchanged. -/
def stripSlashNumbering (s : List Char) : List Char :=
  let d1 := s.takeWhile Char.isDigit
  if d1.isEmpty then s
  else
    match s.drop d1.length with
    | '/' :: rest =>
      let d2 := rest.takeWhile Char.isDigit
      if d2.isEmpty then s
      else
        let r1 := (rest.drop d2.length).dropWhile isSpaceB
        let r2 := match r1 with
          | '-' :: tl => tl
          | ':' :: tl => tl
          | _ => r1
        r2.dropWhile isSpaceB
    | _ => s

/-- Strip a leading label of the form Tweet, whitespace, digits and a
colon, case-insensitively, followed by optional whitespace: the second
re.sub applied to generated thread lines. -/
def stripTweetLabel (s : List Char) : List Char :=
  match s with
  | c1 :: c2 :: c3 :: c4 :: c5 :: rest =>
    if lowerChar c1 = 't' ∧ lowerChar c2 = 'w' ∧ lowerChar c3 = 'e' ∧
        lowerChar c4 = 'e' ∧ lowerChar c5 = 't' then
      let ws := rest.takeWhile isSpaceB
      if ws.isEmpty then s
      else
        let r2 := rest.drop ws.length
        let ds := r2.takeWhile Char.isDigit
        if ds.isEmpty then s
        else
          match r2.drop ds.length with
          | ':' :: r3 => r3.dropWhile isSpaceB
          | _ => s
    else s
  | _ => s

/-- Cleanup applied to one non-blank generated line: both numbering
substitutions followed by a final strip. -/
def cleanLine (s : List Char) : List Char :=
  stripWs (stripTweetLabel (stripSlashNumbering s))

/-- Thread cleanup of generate_heartbreaking_loss_thread: split the raw
response on newlines, strip each line and drop blanks, clean each
remaining line, and keep only the non-empty results of at most 280
characters. -/
def cleanedTweets (raw : List Char) : List (List Char) :=
  let lines := ((splitOnNl raw).map stripWs).filter fun l => !l.isEmpty
  (lines.map cleanLine).filter fun t => !t.isEmpty && t.length ≤ 280

/-- Outcome of the generation step on a raw response: an error when the
cleaned list is empty, otherwise the cleaned tweets. -/
def generateThreadClean (raw : List Char) : Except Unit (List (List Char)) :=
  if (cleanedTweets raw).isEmpty then Except.error () else Except.ok (cleanedTweets raw)

/-- C4: every cleaned thread line has at most 280 characters, the two
sample lines of the specification clean to the expected texts, and the
generation step errors exactly when the cleaned list is empty. -/
theorem c4_thread_cleaning :
    (∀ raw t, t ∈ cleanedTweets raw → t.length ≤ 280) ∧
    cleanedTweets ( "1/9 - Great win today".data) = [ "Great win today".data ] ∧
    cleanedTweets ( "Tweet 3: Huge sack!".data) = [ "Huge sack!".data ] ∧
    (∀ raw, generateThreadClean raw = Except.error () ↔ cleanedTweets raw = []) := by
  refine ⟨?_, by decide, by decide, ?_⟩
  · intro raw t ht
    simp only [cleanedTweets, List.mem_filter, Bool.and_eq_true, decide_eq_true_eq] at ht
    exact ht.2.2
  · intro raw
    unfold generateThreadClean
    by_cases hc : (cleanedTweets raw).isEmpty
    · simp [hc, List.isEmpty_iff.mp hc]
    · simp [hc, List.isEmpty_iff.not.mp hc]

/-- Witness for C4 at a concrete raw response and cleaned line. -/
theorem c4_thread_cleaning_witness :
    "Great win today".data ∈ cleanedTweets ( "1/9 - Great win today".data) ∧
    ( "Great win today".data).length ≤ 280 :=
  ⟨by decide,
   c4_thread_cleaning.1 ( "1/9 - Great win today".data) ( "Great win today".data) (by decide)⟩

/-- Loop body of post_tweet_thread: attempt the tweets in order; every
attempt after the first carries the identifier returned by the previous
successful call as its reply-to reference; the first failing call ends
the loop with a failure flag.  The Twitter client is an explicit
function from text and reply-to reference to an identifier or an error,
and the returned list is the trace of attempted calls with their
arguments. -/
def postThreadGo (client : List Char → Option Nat → Except Unit Nat) :
    List (List Char) → Option Nat → List (List Char × Option Nat) × Bool
  | [], _ => ([], true)
  | t :: rest, prev =>
    match client t prev with
    | Except.ok id =>
      ((t, prev) :: (postThreadGo client rest (some id)).1,
        (postThreadGo client rest (some id)).2)
    | Except.error _ => ([(t, prev)], false)

/-- ChargersNewsBot.post_tweet_thread: an empty list is rejected with a
failure flag and no calls; otherwise the chain loop runs with no initial
reply-to reference.  Any client error is caught and converted to the
failure flag. -/
def postTweetThread (client : List Char → Option Nat → Except Unit Nat)
    (tweets : List (List Char)) : List (List Char × Option Nat) × Bool :=
  if tweets.isEmpty then ([], false) else postThreadGo client tweets none

theorem postThreadGo_map (client : List Char → Option Nat → Except Unit Nat) :
    ∀ (ts : List (List Char)) (prev : Option Nat),
      ∃ rest, ts = (postThreadGo client ts prev).1.map Prod.fst ++ rest := by
  intro ts
  induction ts with
  | nil => exact fun _ => ⟨[], rfl⟩
  | cons t rest ih =>
    intro prev
    cases hcl : client t prev with
    | ok id =>
      obtain ⟨q, hq⟩ := ih (some id)
      refine ⟨q, ?_⟩
      simp only [postThreadGo, hcl, List.map_cons, List.cons_append]
      exact congrArg (t :: ·) hq
    | error e =>
      refine ⟨rest, ?_⟩
      simp [postThreadGo, hcl]

theorem postThreadGo_head (client : List Char → Option Nat → Except Unit Nat) :
    ∀ (ts : List (List Char)) (prev : Option Nat) (c : List Char × Option Nat),
      (postThreadGo client ts prev).1.head? = some c → c.2 = prev := by
  intro ts
  cases ts with
  | nil =>
    intro prev c h
    simp [postThreadGo] at h
  | cons t rest =>
    intro prev c h
    cases hcl : client t prev with
    | ok id =>
      simp only [postThreadGo, hcl, List.head?_cons, Option.some.injEq] at h
      rw [← h]
    | error e =>
      simp only [postThreadGo, hcl, List.head?_cons, Option.some.injEq] at h
      rw [← h]

theorem postThreadGo_chain (client : List Char → Option Nat → Except Unit Nat) :
    ∀ (ts : List (List Char)) (prev : Option Nat),
      List.Chain' (fun a b => ∃ id, client a.1 a.2 = Except.ok id ∧ b.2 = some id)
        (postThreadGo client ts prev).1 := by
  intro ts
  induction ts with
  | nil =>
    intro prev
    simp [postThreadGo]
  | cons t rest ih =>
    intro prev
    cases hcl : client t prev with
    | ok id =>
      simp only [postThreadGo, hcl]
      rw [List.chain'_cons']
      refine ⟨?_, ih (some id)⟩
      intro y hy
      exact ⟨id, hcl, postThreadGo_head client rest (some id) y hy⟩
    | error e =>
      simp only [postThreadGo, hcl]
      exact List.chain'_singleton _

theorem postThreadGo_true (client : List Char → Option Nat → Except Unit Nat) :
    ∀ (ts : List (List Char)) (prev : Option Nat),
      (postThreadGo client ts prev).2 = true ↔
        ((postThreadGo client ts prev).1.map Prod.fst = ts ∧
          ∀ c ∈ (postThreadGo client ts prev).1, ∃ id, client c.1 c.2 = Except.ok id) := by
  intro ts
  induction ts with
  | nil =>
    intro prev
    simp [postThreadGo]
  | cons t rest ih =>
    intro prev
    cases hcl : client t prev with
    | ok id =>
      simp only [postThreadGo, hcl, List.map_cons, List.cons.injEq, List.mem_cons, true_and]
      rw [ih (some id)]
      constructor
      · rintro ⟨hmap, hall⟩
        refine ⟨hmap, ?_⟩
        rintro c (rfl | hc)
        · exact ⟨id, hcl⟩
        · exact hall c hc
      · rintro ⟨hmap, hall⟩
        exact ⟨hmap, fun c hc => hall c (Or.inr hc)⟩
    | error e =>
      simp only [postThreadGo, hcl, List.map_cons, List.map_nil]
      constructor
      · intro h
        cases h
      · rintro ⟨hmap, hall⟩
        obtain ⟨id, hid⟩ := hall (t, prev) (List.mem_singleton_self _)
        rw [hcl] at hid
        cases hid

theorem postThreadGo_false (client : List Char → Option Nat → Except Unit Nat) :
    ∀ (ts : List (List Char)) (prev : Option Nat),
      (postThreadGo client ts prev).2 = false →
        ∃ c, (postThreadGo client ts prev).1.getLast? = some c ∧
          client c.1 c.2 = Except.error () := by
  intro ts
  induction ts with
  | nil =>
    intro prev h
    simp [postThreadGo] at h
  | cons t rest ih =>
    intro prev h
    cases hcl : client t prev with
    | ok id =>
      simp only [postThreadGo, hcl] at h ⊢
      obtain ⟨c, hc1, hc2⟩ := ih (some id) h
      refine ⟨c, ?_, hc2⟩
      cases hR : (postThreadGo client rest (some id)).1 with
      | nil =>
        rw [hR] at hc1
        simp at hc1
      | cons x xs =>
        rw [hR] at hc1
        rw [List.getLast?_cons_cons]
        exact hc1
    | error e =>
      cases e
      simp only [postThreadGo, hcl]
      exact ⟨(t, prev), rfl, hcl⟩

/-- C5: for every client and non-empty tweet list, the trace of calls of
post_tweet_thread follows the list in order; the first call carries no
reply-to reference; each later call carries the identifier returned by
the immediately preceding call; success is reported exactly when every
tweet of the list was attempted and every call succeeded; and on failure
the trace ends at the first failing call, later elements are never sent,
earlier calls stay sent, and a failure flag is returned rather than an
error. -/
theorem c5_post_thread_chain (client : List Char → Option Nat → Except Unit Nat)
    (tweets : List (List Char)) (hne : tweets ≠ []) :
    (∃ rest, tweets = (postTweetThread client tweets).1.map Prod.fst ++ rest) ∧
    (∀ c, (postTweetThread client tweets).1.head? = some c → c.2 = none) ∧
    List.Chain' (fun a b => ∃ id, client a.1 a.2 = Except.ok id ∧ b.2 = some id)
      (postTweetThread client tweets).1 ∧
    ((postTweetThread client tweets).2 = true ↔
      ((postTweetThread client tweets).1.map Prod.fst = tweets ∧
        ∀ c ∈ (postTweetThread client tweets).1, ∃ id, client c.1 c.2 = Except.ok id)) ∧
    ((postTweetThread client tweets).2 = false →
      ∃ c, (postTweetThread client tweets).1.getLast? = some c ∧
        client c.1 c.2 = Except.error ()) := by
  have hE : tweets.isEmpty = false := by
    cases tweets with
    | nil => exact absurd rfl hne
    | cons a l => rfl
  simp only [postTweetThread, hE, Bool.false_eq_true, if_false]
  exact ⟨postThreadGo_map client tweets none,
    fun c => postThreadGo_head client tweets none c,
    postThreadGo_chain client tweets none,
    postThreadGo_true client tweets none,
    postThreadGo_false client tweets none⟩

/-- Deterministic client used to exercise the thread publisher on
concrete inputs: short texts succeed with their length as identifier,
longer texts fail. -/
def demoClient : List Char → Option Nat → Except Unit Nat :=
  fun t _ => if t.length ≤ 5 then Except.ok t.length else Except.error ()

/-- Witness for C5 at a concrete client and tweet list. -/
theorem c5_post_thread_chain_witness :
    ∃ rest, [ "Bolt".data, "Up".data ] =
      (postTweetThread demoClient [ "Bolt".data, "Up".data ]).1.map Prod.fst ++ rest :=
  (c5_post_thread_chain demoClient [ "Bolt".data, "Up".data ] (by decide)).1

/-- Article record built by fetch_news: title, link, the raw published
string, the structured publish time (absent when missing or
unparseable), summary, and source name. -/
structure Article where
  title : List Char
  link : List Char
  published : List Char
  publishedParsed : Option Int
  summary : List Char
  source : List Char
deriving DecidableEq

/-- Candidate selection of ChargersNewsBot.run: keep the articles whose
link is not yet in the posted set and which pass the 24-hour recency
filter; the posted set is consulted once, before any posting. -/
def newArticles (now : Int) (articles : List Article) (posted : List (List Char)) :
    List Article :=
  articles.filter fun a => !(decide (a.link ∈ posted)) && isRecentArticle now a.publishedParsed 24

/-- Loop body of run for one candidate: on a successful post the link is
recorded in the ledger and the article appended to the published list;
on a failed post nothing changes and the loop continues. -/
def runStep (postOk : Article → Bool) (st : List (List Char) × List Article)
    (a : Article) : List (List Char) × List Article :=
  if postOk a then (a.link :: st.1, st.2 ++ [a]) else st

/-- ChargersNewsBot.run: filter the fetched articles against the ledger
and the recency window, then post each candidate in order, recording
each successfully posted link; returns the final ledger and the list of
articles actually published. -/
def runOnce (postOk : Article → Bool) (now : Int) (articles : List Article)
    (posted : List (List Char)) : List (List Char) × List Article :=
  (newArticles now articles posted).foldl (runStep postOk) (posted, [])

theorem runFold_mono (postOk : Article → Bool) :
    ∀ (l : List Article) (st : List (List Char) × List Article) (x : List Char),
      x ∈ st.1 → x ∈ (l.foldl (runStep postOk) st).1 := by
  intro l
  induction l with
  | nil => exact fun st x hx => hx
  | cons a l ih =>
    intro st x hx
    rw [List.foldl_cons]
    refine ih _ x ?_
    unfold runStep
    by_cases hp : postOk a = true
    · rw [if_pos hp]
      exact List.mem_cons_of_mem _ hx
    · rw [if_neg hp]
      exact hx

theorem runFold_records (postOk : Article → Bool) :
    ∀ (l : List Article) (st : List (List Char) × List Article) (a : Article),
      a ∈ l → postOk a = true → a.link ∈ (l.foldl (runStep postOk) st).1 := by
  intro l
  induction l with
  | nil =>
    intro st a ha
    cases ha
  | cons b l ih =>
    intro st a ha hp
    rw [List.foldl_cons]
    rcases List.mem_cons.mp ha with rfl | ha2
    · refine runFold_mono postOk l _ a.link ?_
      unfold runStep
      rw [if_pos hp]
      exact List.mem_cons_self _ _
    · exact ih _ a ha2 hp

/-- C6: when one run of the orchestrator succeeds on every attempted
publish, every link of every candidate is in the resulting ledger, so a
second run over identical feed content and the resulting ledger has no
candidates at all and publishes zero additional articles, whatever its
own posting outcomes would be. -/
theorem c6_second_run_empty (postOk postOk2 : Article → Bool) (now : Int)
    (articles : List Article) (posted : List (List Char))
    (hall : ∀ a ∈ newArticles now articles posted, postOk a = true) :
    newArticles now articles (runOnce postOk now articles posted).1 = [] ∧
    (runOnce postOk2 now articles (runOnce postOk now articles posted).1).2 = [] := by
  have hempty : newArticles now articles (runOnce postOk now articles posted).1 = [] := by
    simp only [newArticles, List.filter_eq_nil_iff]
    intro a ha hcontra
    rw [Bool.and_eq_true, Bool.not_eq_true', decide_eq_false_iff_not] at hcontra
    obtain ⟨hnot, hrec⟩ := hcontra
    refine hnot ?_
    by_cases hp : a.link ∈ posted
    · exact runFold_mono postOk (newArticles now articles posted) (posted, []) a.link hp
    · have hmem : a ∈ newArticles now articles posted := by
        rw [newArticles, List.mem_filter]
        refine ⟨ha, ?_⟩
        rw [Bool.and_eq_true, Bool.not_eq_true', decide_eq_false_iff_not]
        exact ⟨hp, hrec⟩
      exact runFold_records postOk (newArticles now articles posted) (posted, []) a hmem
        (hall a hmem)
  refine ⟨hempty, ?_⟩
  have hrw : runOnce postOk2 now articles (runOnce postOk now articles posted).1 =
      (newArticles now articles (runOnce postOk now articles posted).1).foldl
        (runStep postOk2) ((runOnce postOk now articles posted).1, []) := rfl
  rw [hrw, hempty]
  rfl

/-- Concrete article used to exercise the orchestrator on concrete
inputs. -/
def demoArticle : Article :=
  { title := "Herbert throws 3 TDs".data
    link := "http://x/1".data
    published := []
    publishedParsed := some 0
    summary := []
    source := "ESPN".data }

/-- Witness for C6 at a concrete article list and empty ledger. -/
theorem c6_second_run_empty_witness :
    newArticles 0 [ demoArticle ] (runOnce (fun _ => true) 0 [ demoArticle ] []).1 = [] ∧
    (runOnce (fun _ => true) 0 [ demoArticle ]
      (runOnce (fun _ => true) 0 [ demoArticle ] []).1).2 = [] :=
  c6_second_run_empty (fun _ => true) (fun _ => true) 0 [ demoArticle ] []
    (fun _ _ => rfl)

/-- State of the dedup ledger: the in-memory set of posted links and the
backing store, absent when the file does not exist, otherwise its raw
character content. -/
structure LedgerState where
  mem : List (List Char)
  file : Option (List Char)

/-- ChargersNewsBot.load_posted_articles: a missing store is an empty
ledger; otherwise the content is split into lines, each line stripped,
and blank lines dropped. -/
def loadPostedArticles (file : Option (List Char)) : List (List Char) :=
  match file with
  | none => []
  | some content => ((splitOnNl content).map stripWs).filter fun l => !l.isEmpty

/-- ChargersNewsBot.save_posted_article: the url joins the in-memory set
first; then the store append of the url followed by a newline either
succeeds or fails, and a failure leaves the store unchanged and is
otherwise ignored. -/
def savePostedArticle (st : LedgerState) (url : List Char) (writeOk : Bool) : LedgerState :=
  { mem := if url ∈ st.mem then st.mem else url :: st.mem
    file := if writeOk then some ((st.file.getD []) ++ url ++ [ '\n' ]) else st.file }

/-- Well-formedness of the backing store: absent, empty, or ending with
a newline; every successful append preserves it. -/
def endsNl (file : Option (List Char)) : Prop :=
  match file with
  | none => True
  | some c => c = [] ∨ c.getLast? = some '\n'

theorem splitOnNl_ne_nil (s : List Char) : splitOnNl s ≠ [] := by
  cases s with
  | nil => exact fun h => List.noConfusion h
  | cons c rest =>
    unfold splitOnNl
    by_cases hc : c = '\n'
    · rw [if_pos hc]
      exact fun h => List.noConfusion h
    · rw [if_neg hc]
      cases splitOnNl rest with
      | nil => exact fun h => List.noConfusion h
      | cons h t => exact fun he => List.noConfusion he

theorem splitOnNl_cons (c : Char) (rest : List Char) :
    splitOnNl (c :: rest) =
      if c = '\n' then [] :: splitOnNl rest
      else
        match splitOnNl rest with
        | [] => [ [c] ]
        | h :: t => (c :: h) :: t := by
  rw [splitOnNl]

theorem splitOnNl_append_nl (u : List Char) (hu : '\n' ∉ u) (s : List Char) :
    splitOnNl (u ++ '\n' :: s) = u :: splitOnNl s := by
  induction u with
  | nil =>
    simp [splitOnNl]
  | cons c u2 ih =>
    have hc : c ≠ '\n' := fun h => hu (h ▸ List.mem_cons_self c u2)
    have hu2 : '\n' ∉ u2 := fun h => hu (List.mem_cons_of_mem c h)
    rw [List.cons_append, splitOnNl_cons, if_neg hc, ih hu2]

theorem splitOnNl_drop (c : List Char) :
    c ≠ [] → c.getLast? = some '\n' → ∀ s : List Char,
      ∃ pre, pre ≠ [] ∧ splitOnNl (c ++ s) = pre ++ splitOnNl s := by
  induction c with
  | nil => exact fun hne _ _ => absurd rfl hne
  | cons ch c2 ih =>
    intro _ hlast s
    cases c2 with
    | nil =>
      have hch : ch = '\n' := by
        simpa using hlast
      subst hch
      refine ⟨[[]], fun h => List.noConfusion h, ?_⟩
      simp [splitOnNl]
    | cons d c3 =>
      have hlast2 : (d :: c3).getLast? = some '\n' := by
        rwa [List.getLast?_cons_cons] at hlast
      obtain ⟨pre, hpre, hsp⟩ := ih (fun h => List.noConfusion h) hlast2 s
      by_cases hch : ch = '\n'
      · subst hch
        refine ⟨[] :: pre, fun h => List.noConfusion h, ?_⟩
        rw [List.cons_append, splitOnNl_cons, if_pos rfl, hsp]
        rfl
      · cases pre with
        | nil => exact absurd rfl hpre
        | cons p ps =>
          refine ⟨(ch :: p) :: ps, fun h => List.noConfusion h, ?_⟩
          rw [List.cons_append, splitOnNl_cons, if_neg hch, hsp]
          rfl

theorem mem_splitOnNl_append (c u : List Char)
    (hc : c = [] ∨ c.getLast? = some '\n') (hu : '\n' ∉ u) :
    u ∈ splitOnNl (c ++ (u ++ [ '\n' ])) := by
  have hbase : splitOnNl (u ++ [ '\n' ]) = u :: splitOnNl [] := by
    exact splitOnNl_append_nl u hu []
  rcases hc with rfl | hlast
  · rw [List.nil_append, hbase]
    exact List.mem_cons_self _ _
  · rcases eq_or_ne c [] with rfl | hne
    · rw [List.nil_append, hbase]
      exact List.mem_cons_self _ _
    · obtain ⟨pre, hpre, hsp⟩ := splitOnNl_drop c hne hlast (u ++ [ '\n' ])
      rw [hsp, hbase]
      exact List.mem_append_right _ (List.mem_cons_self _ _)

/-- C7 (amended): once record runs for a url, the in-memory set holds
the url whether or not the store write succeeded, and it keeps holding
it across later records; a missing store loads as the empty ledger;
every write preserves the newline-terminated shape of the store; and
when the write succeeded, the store content is well formed, and the url
is non-empty, free of newlines and of surrounding whitespace, reloading
the ledger from the store yields a set that still holds the url. -/
theorem c7_dedup_ledger (st : LedgerState) (url u2 : List Char) (w w2 : Bool) :
    url ∈ (savePostedArticle st url w).mem ∧
    (url ∈ st.mem → url ∈ (savePostedArticle st u2 w2).mem) ∧
    loadPostedArticles none = [] ∧
    (endsNl st.file → endsNl (savePostedArticle st url w).file) ∧
    ( '\n' ∉ url → stripWs url = url → url ≠ [] → endsNl st.file →
      url ∈ loadPostedArticles (savePostedArticle st url true).file) := by
  refine ⟨?_, ?_, rfl, ?_, ?_⟩
  · show url ∈ (if url ∈ st.mem then st.mem else url :: st.mem)
    by_cases h : url ∈ st.mem
    · rwa [if_pos h]
    · rw [if_neg h]
      exact List.mem_cons_self _ _
  · intro hmem
    show url ∈ (if u2 ∈ st.mem then st.mem else u2 :: st.mem)
    by_cases h : u2 ∈ st.mem
    · rwa [if_pos h]
    · rw [if_neg h]
      exact List.mem_cons_of_mem _ hmem
  · intro hE
    cases w with
    | false => exact hE
    | true => exact Or.inr (List.getLast?_concat _)
  · intro hnl hstrip hne hE
    have hc : st.file.getD [] = [] ∨ (st.file.getD []).getLast? = some '\n' := by
      cases hf : st.file with
      | none => exact Or.inl rfl
      | some c =>
        rw [hf] at hE
        exact hE
    have hmem := mem_splitOnNl_append (st.file.getD []) url hc hnl
    show url ∈ loadPostedArticles (some ((st.file.getD []) ++ url ++ [ '\n' ]))
    refine List.mem_filter.mpr ⟨?_, ?_⟩
    · refine List.mem_map.mpr ⟨url, ?_, hstrip⟩
      rw [List.append_assoc]
      exact hmem
    · simp [List.isEmpty_iff, hne]

/-- Witness for C7 at a concrete ledger and url. -/
theorem c7_dedup_ledger_witness :
    "http://x/1".data ∈
      (savePostedArticle { mem := [], file := none } ( "http://x/1".data) true).mem ∧
    "http://x/1".data ∈ loadPostedArticles
      (savePostedArticle { mem := [], file := none } ( "http://x/1".data) true).file :=
  ⟨(c7_dedup_ledger { mem := [], file := none } ( "http://x/1".data) [] true true).1,
   (c7_dedup_ledger { mem := [], file := none } ( "http://x/1".data) [] true true).2.2.2.2
     (by decide) (by decide) (by decide) trivial⟩

/-- Counterexample to C7 as stated: recording the empty identifier with
a successful write leaves it in the in-memory set, yet reloading the
store does not yield it, because the blank line it wrote is dropped by
the loader. -/
theorem c7_counterexample :
    ([] : List Char) ∈ (savePostedArticle { mem := [], file := some [] } [] true).mem ∧
    ([] : List Char) ∉
      loadPostedArticles (savePostedArticle { mem := [], file := some [] } [] true).file := by
  refine ⟨by decide, by decide⟩

/-- Raw feed entry as the Feed Reader sees it: every field may be
missing; the structured publish time is separate from the display
string. -/
structure FeedEntry where
  title : Option (List Char)
  link : Option (List Char)
  published : Option (List Char)
  publishedParsed : Option Int
  summary : Option (List Char)

/-- Article construction of fetch_news for a matching entry: the title
defaults to the placeholder text No title, the link, published string
and summary default to the empty string, and the structured publish time
passes through as an optional value. -/
def mkArticle (e : FeedEntry) (sourceName : List Char) : Article :=
  { title := e.title.getD ( "No title".data)
    link := e.link.getD []
    published := e.published.getD []
    publishedParsed := e.publishedParsed
    summary := e.summary.getD []
    source := sourceName }

/-- C8 (amended): in the article record produced for a feed entry, a
missing link, published string or summary defaults to the empty string,
a missing structured publish date is carried as the absent value rather
than an error, and a missing title defaults to the placeholder text
No title rather than the empty string. -/
theorem c8_entry_defaults (e : FeedEntry) (sourceName : List Char) :
    (e.title = none → (mkArticle e sourceName).title = "No title".data) ∧
    (e.link = none → (mkArticle e sourceName).link = []) ∧
    (e.published = none → (mkArticle e sourceName).published = []) ∧
    (e.summary = none → (mkArticle e sourceName).summary = []) ∧
    (e.publishedParsed = none → (mkArticle e sourceName).publishedParsed = none) := by
  refine ⟨fun h => ?_, fun h => ?_, fun h => ?_, fun h => ?_, fun h => ?_⟩ <;>
    simp [mkArticle, h]

/-- Witness for C8 at the all-absent feed entry. -/
theorem c8_entry_defaults_witness :
    (mkArticle ⟨none, none, none, none, none⟩ ( "ESPN".data)).title = "No title".data ∧
    (mkArticle ⟨none, none, none, none, none⟩ ( "ESPN".data)).link = [] :=
  ⟨(c8_entry_defaults _ _).1 rfl, (c8_entry_defaults _ _).2.1 rfl⟩

/-- Counterexample to C8 as stated: the record built for an entry with
a missing title does not default that field to the empty string. -/
theorem c8_counterexample :
    (mkArticle ⟨none, none, none, none, none⟩ []).title ≠ [] := by
  decide

/-- Epoch-second encoding of the sentinel datetime(2000, 1, 1) used as
the sort key for articles with no usable publish time. -/
def year2000 : Int := 946684800

/-- ChargersNewsBot.get_article_publish_time: the parsed publish time
when available, the year-2000 sentinel when missing or unparseable. -/
def getArticlePublishTime (a : Article) : Int :=
  a.publishedParsed.getD year2000

/-- Stable descending insertion of one article into a list already
sorted by publish time descending: the article goes before the first
element whose key is not larger, so earlier feed entries keep their
position among equal keys, as with the stable Python sort. -/
def insertDesc (a : Article) : List Article → List Article
  | [] => [a]
  | b :: rest =>
    if getArticlePublishTime b ≤ getArticlePublishTime a then a :: b :: rest
    else b :: insertDesc a rest

/-- Stable sort of the candidate articles by publish time descending,
the effect of articles.sort with the publish-time key and reverse order. -/
def sortArticlesDesc : List Article → List Article
  | [] => []
  | a :: rest => insertDesc a (sortArticlesDesc rest)

/-- Selection shared by run_dry_run and run_test: the first element of
the candidates sorted by publish time descending. -/
def selectMostRecent (articles : List Article) : Option Article :=
  (sortArticlesDesc articles).head?

/-- ChargersNewsBot.run_dry_run: format the most recent article, post
nothing; no draft exists when no article matched. -/
def runDryRun (articles : List Article) : Option (List Char) :=
  (selectMostRecent articles).map fun a => formatTweet a.title a.link

theorem insertDesc_perm (a : Article) :
    ∀ l : List Article, List.Perm (insertDesc a l) (a :: l) := by
  intro l
  induction l with
  | nil => exact List.Perm.refl _
  | cons b rest ih =>
    by_cases h : getArticlePublishTime b ≤ getArticlePublishTime a
    · rw [insertDesc, if_pos h]
    · rw [insertDesc, if_neg h]
      exact (List.Perm.cons b ih).trans (List.Perm.swap a b rest)

theorem insertDesc_pairwise (a : Article) :
    ∀ l : List Article,
      l.Pairwise (fun x y => getArticlePublishTime y ≤ getArticlePublishTime x) →
      (insertDesc a l).Pairwise
        (fun x y => getArticlePublishTime y ≤ getArticlePublishTime x) := by
  intro l
  induction l with
  | nil =>
    intro _
    simp [insertDesc]
  | cons b rest ih =>
    intro hp
    rw [List.pairwise_cons] at hp
    obtain ⟨hb, hrest⟩ := hp
    by_cases h : getArticlePublishTime b ≤ getArticlePublishTime a
    · rw [insertDesc, if_pos h, List.pairwise_cons]
      refine ⟨?_, List.pairwise_cons.mpr ⟨hb, hrest⟩⟩
      intro y hy
      rcases List.mem_cons.mp hy with rfl | hy2
      · exact h
      · exact le_trans (hb y hy2) h
    · rw [insertDesc, if_neg h, List.pairwise_cons]
      refine ⟨?_, ih hrest⟩
      intro y hy
      have hy2 : y ∈ a :: rest := (insertDesc_perm a rest).mem_iff.mp hy
      rcases List.mem_cons.mp hy2 with rfl | hy3
      · exact le_of_not_le h
      · exact hb y hy3

theorem sortArticlesDesc_perm :
    ∀ l : List Article, List.Perm (sortArticlesDesc l) l := by
  intro l
  induction l with
  | nil => exact List.Perm.refl _
  | cons a rest ih =>
    show List.Perm (insertDesc a (sortArticlesDesc rest)) (a :: rest)
    exact (insertDesc_perm a _).trans (List.Perm.cons a ih)

theorem sortArticlesDesc_pairwise :
    ∀ l : List Article,
      (sortArticlesDesc l).Pairwise
        (fun x y => getArticlePublishTime y ≤ getArticlePublishTime x) := by
  intro l
  induction l with
  | nil => simp [sortArticlesDesc]
  | cons a rest ih => exact insertDesc_pairwise a _ ih

/-- C9: the single-most-recent entry points sort the candidates by
publish time descending (a permutation of the candidates, pairwise
non-increasing keys), a missing publish time is given the year-2000
sentinel key, only the head of the sorted list is formatted, that head
carries a maximal key among all candidates, and an undated article never
appears before an article whose key exceeds the sentinel. -/
theorem c9_most_recent (l : List Article) :
    List.Perm (sortArticlesDesc l) l ∧
    (sortArticlesDesc l).Pairwise
      (fun x y => getArticlePublishTime y ≤ getArticlePublishTime x) ∧
    (∀ a : Article, a.publishedParsed = none → getArticlePublishTime a = year2000) ∧
    (∀ a, selectMostRecent l = some a →
      a ∈ l ∧ runDryRun l = some (formatTweet a.title a.link) ∧
      ∀ b ∈ l, getArticlePublishTime b ≤ getArticlePublishTime a) ∧
    (∀ i j : Fin (sortArticlesDesc l).length,
      ((sortArticlesDesc l).get i).publishedParsed = none →
      year2000 < getArticlePublishTime ((sortArticlesDesc l).get j) →
      (j : Nat) < (i : Nat)) := by
  refine ⟨sortArticlesDesc_perm l, sortArticlesDesc_pairwise l,
    fun a h => by simp [getArticlePublishTime, h], ?_, ?_⟩
  · intro a ha
    have hperm := sortArticlesDesc_perm l
    have hpw := sortArticlesDesc_pairwise l
    cases hs : sortArticlesDesc l with
    | nil =>
      rw [selectMostRecent, hs] at ha
      cases ha
    | cons h0 t0 =>
      rw [selectMostRecent, hs, List.head?_cons, Option.some.injEq] at ha
      subst ha
      rw [hs] at hperm hpw
      refine ⟨hperm.mem_iff.mp (List.mem_cons_self _ _), ?_, ?_⟩
      · rw [runDryRun, selectMostRecent, hs, List.head?_cons]
        rfl
      · intro b hb
        have hb2 : b ∈ h0 :: t0 := hperm.mem_iff.mpr hb
        rcases List.mem_cons.mp hb2 with rfl | hb3
        · exact le_refl _
        · exact (List.pairwise_cons.mp hpw).1 b hb3
  · intro i j hni hgt
    by_contra hle
    push_neg at hle
    have hkey : getArticlePublishTime ((sortArticlesDesc l).get i) = year2000 := by
      rw [getArticlePublishTime, hni]
      rfl
    rcases eq_or_lt_of_le hle with heq | hlt
    · have : i = j := Fin.ext heq
      rw [← this, hkey] at hgt
      exact lt_irrefl _ hgt
    · have hpw := sortArticlesDesc_pairwise l
      rw [List.pairwise_iff_get] at hpw
      have := hpw i j hlt
      rw [hkey] at this
      exact absurd (lt_of_lt_of_le hgt this) (lt_irrefl _)

/-- Witness for C9 at a concrete candidate list. -/
theorem c9_most_recent_witness :
    demoArticle ∈ [ demoArticle ] ∧
    runDryRun [ demoArticle ] = some (formatTweet demoArticle.title demoArticle.link) ∧
    ∀ b ∈ [ demoArticle ], getArticlePublishTime b ≤ getArticlePublishTime demoArticle :=
  (c9_most_recent [ demoArticle ]).2.2.2.1 demoArticle (by decide)

/-- ChargersNewsBot.run_test: select the most recent candidate, format
it and post it live; the outcome is reported, the attempted post is the
single formatted tweet, and the ledger state is passed through
untouched, with no record of the posted link. -/
def runTest (postOk : Article → Bool) (articles : List Article) (st : LedgerState) :
    Option Bool × List (List Char) × LedgerState :=
  match selectMostRecent articles with
  | none => (none, [], st)
  | some a => (some (postOk a), [ formatTweet a.title a.link ], st)

theorem runTest_state (postOk : Article → Bool) (articles : List Article)
    (st : LedgerState) : (runTest postOk articles st).2.2 = st := by
  cases hs : selectMostRecent articles <;> simp [runTest, hs]

/-- C10: run_test posts the selected article live but never records its
link: the ledger state, in-memory set and store alike, is unchanged by
every execution, and a subsequent normal run over the unchanged ledger
publishes the very same article again, as the concrete scenario shows. -/
theorem c10_run_test_frame (postOk : Article → Bool) (articles : List Article)
    (st : LedgerState) :
    (runTest postOk articles st).2.2 = st ∧
    (∀ a, selectMostRecent articles = some a →
      (runTest postOk articles st).2.1 = [ formatTweet a.title a.link ]) ∧
    (runOnce (fun _ => true) 0 [ demoArticle ]
        (runTest (fun _ => true) [ demoArticle ] { mem := [], file := none }).2.2.mem).2
      = [ demoArticle ] := by
  refine ⟨runTest_state postOk articles st, ?_, ?_⟩
  · intro a ha
    simp [runTest, ha]
  · rw [runTest_state]
    show ((newArticles 0 [ demoArticle ] []).foldl
      (runStep (fun _ => true)) ([], [])).2 = [ demoArticle ]
    have hpp : demoArticle.publishedParsed = some 0 := rfl
    have hrec : isRecentArticle 0 demoArticle.publishedParsed 24 = true := by
      rw [hpp]
      exact (isRecentArticle_some_iff 0 0 24).mpr (by norm_num)
    have hnew : newArticles 0 [ demoArticle ] [] = [ demoArticle ] := by
      simp [newArticles, List.filter, hrec]
    rw [hnew]
    simp [runStep]

/-- Witness for C10 at a concrete article list and ledger. -/
theorem c10_run_test_frame_witness :
    (runTest (fun _ => true) [ demoArticle ] { mem := [], file := none }).2.1 =
      [ formatTweet demoArticle.title demoArticle.link ] :=
  (c10_run_test_frame (fun _ => true) [ demoArticle ] { mem := [], file := none }).2.1
    demoArticle (by decide)

end ChargersBot


